import Mathlib

/-!
# Verification of the reso-media-gallery directory-listing codec and thumbnail cache

A shallow embedding of the core of `modules/FileServer.py` and
`modules/ThumbnailDatabase.py`.  Python strings are modelled as `List Char`
(named `Str` below); the POSIX variants of `os.path.normpath`, `os.path.join`,
`os.path.abspath`, `os.path.basename` and `os.path.splitext` are embedded
directly, as is `urllib.parse.quote`.  Filesystem state (directory contents,
file kinds, modification times) is passed explicitly through an `Env`
structure, and the SQLite-backed thumbnail store is modelled as explicit
state records.
-/

set_option maxRecDepth 10000

namespace MediaGallery

/-- Python strings, modelled as lists of characters. -/
abbrev Str := List Char

/-- Coerce a Lean string literal to the model's string type. -/
def str (s : String) : Str := s.data

/-- `hasPre p s` is Python's `s.startswith(p)`. -/
def hasPre : Str → Str → Bool
  | [], _ => true
  | _ :: _, [] => false
  | p :: ps, c :: cs => p = c && hasPre ps cs

/-- Python's `s.endswith("/")`. -/
def endsSlash (s : Str) : Bool := s.getLast? = some '/'

/-- Python's `s.split("/")` (also `str.split(os.sep)` with the POSIX separator). -/
def splitSep : Str → List Str
  | [] => [[]]
  | c :: cs =>
    if c = '/' then [] :: splitSep cs
    else
      match splitSep cs with
      | [] => [[c]]
      | p :: ps => (c :: p) :: ps

/-- `"/".join(parts)`. -/
def joinSep : List Str → Str
  | [] => []
  | [p] => p
  | p :: ps => p ++ '/' :: joinSep ps

/-- Number of initial slashes kept by `posixpath.normpath` (0, 1 or 2:
exactly two leading slashes are preserved per POSIX, otherwise collapsed). -/
def initialSlashes (s : Str) : Nat :=
  if hasPre (str "/") s then
    if hasPre (str "//") s && !hasPre (str "///") s then 2 else 1
  else 0

/-- The component-collapsing loop of `posixpath.normpath`: empty and `.`
components are dropped; `..` is kept when it cannot be resolved (leading `..`
of a relative path, or following a kept `..`), pops the previous component
when one is available, and is dropped at the root of an absolute path.
The accumulator holds the kept components in reverse order. -/
def collapseAcc (abs : Bool) : List Str → List Str → List Str
  | acc, [] => acc
  | acc, c :: cs =>
    if c = [] ∨ c = str "." then collapseAcc abs acc cs
    else if c ≠ str ".." ∨ (¬ abs ∧ acc = []) ∨ acc.head? = some (str "..") then
      collapseAcc abs (c :: acc) cs
    else
      match acc with
      | [] => collapseAcc abs [] cs
      | _ :: rest => collapseAcc abs rest cs

/-- `posixpath.normpath`. -/
def normpath (s : Str) : Str :=
  if s = [] then str "."
  else
    let k := initialSlashes s
    let comps := (collapseAcc (k ≠ 0) [] (splitSep s)).reverse
    let p := List.replicate k '/' ++ joinSep comps
    if p = [] then str "." else p

/-- `posixpath.join(a, b)` for the two-argument case used by the server. -/
def pyJoin (a b : Str) : Str :=
  if hasPre (str "/") b then b
  else if a = [] then b
  else if endsSlash a then a ++ b
  else a ++ '/' :: b

/-- `posixpath.abspath`: join onto the working directory when relative,
then normalize. -/
def abspath (cwd s : Str) : Str :=
  normpath (if hasPre (str "/") s then s else pyJoin cwd s)

/-- `s.replace("\\", "/")` (the replaced substring is a single character,
so this is a character map). -/
def replaceBackslash (s : Str) : Str :=
  s.map (fun c => if c = '\\' then '/' else c)

/-- `s.replace("//", "/")`: a single left-to-right pass replacing
non-overlapping occurrences. -/
def collapseDoubleSlash : Str → Str
  | [] => []
  | [c] => [c]
  | c :: d :: rest =>
    if c = '/' ∧ d = '/' then '/' :: collapseDoubleSlash rest
    else c :: collapseDoubleSlash (d :: rest)

/-- The input-normalization pipeline of
`FileServer.get_files_and_subfolders_in_subfolder` (lines 107-125):
drop 4 characters when the input starts with `root/` (note: this keeps the
`/`), `os.path.normpath`, replace `\` by `/`, replace `//` by `/`, then strip
a single leading and a single trailing slash. -/
def canonInput (s0 : Str) : Str :=
  let s := if hasPre (str "root/") s0 then s0.drop 4 else s0
  let s := normpath s
  let s := replaceBackslash s
  let s := collapseDoubleSlash s
  let s := if hasPre (str "/") s then s.drop 1 else s
  if endsSlash s then s.dropLast else s

/-- `FileServer.format_string`: left-justify to `W-1` characters with space
fill, truncate to `W-1` characters, and append the `|` delimiter
(`W = max_response_part_length`). -/
def formatString (W : Nat) (v : Str) : Str :=
  ((v ++ List.replicate ((W - 1) - v.length) ' ').take (W - 1)) ++ ['|']

/-- One decimal digit as a character. -/
def digitChar : Nat → Char
  | 0 => '0' | 1 => '1' | 2 => '2' | 3 => '3' | 4 => '4'
  | 5 => '5' | 6 => '6' | 7 => '7' | 8 => '8' | _ => '9'

/-- Decimal digit extraction, most significant first (fuel-driven so the
kernel can evaluate it; any fuel of at least the digit count works). -/
def decReprGo : Nat → Nat → Str
  | 0, _ => []
  | fuel + 1, n =>
    if n < 10 then [digitChar n] else decReprGo fuel (n / 10) ++ [digitChar (n % 10)]

/-- Python's `str(n)` for a non-negative integer: standard decimal rendering,
most significant digit first, `"0"` for zero. -/
def decRepr (n : Nat) : Str := decReprGo (n + 1) n

/-- `os.path.basename`: everything after the last `/`. -/
def basename (p : Str) : Str := (p.reverse.takeWhile (fun c => c ≠ '/')).reverse

/-- The extension part of `os.path.splitext`: the suffix from the last dot,
unless every character before that dot is itself a dot. -/
def extOf (f : Str) : Str :=
  let tail := f.reverse.takeWhile (fun c => c ≠ '.')
  if tail.length = f.length then []
  else
    let dotIdx := f.length - tail.length - 1
    if (f.take dotIdx).any (fun c => c ≠ '.') then f.drop dotIdx else []

/-- Python's `str.lower` on the ASCII range. -/
def lowerStr (s : Str) : Str := s.map Char.toLower

/-- UTF-8 encoding of a Unicode scalar value. -/
def utf8Bytes (n : Nat) : List Nat :=
  if n < 0x80 then [n]
  else if n < 0x800 then [0xC0 + n / 64, 0x80 + n % 64]
  else if n < 0x10000 then [0xE0 + n / 4096, 0x80 + n / 64 % 64, 0x80 + n % 64]
  else [0xF0 + n / 262144, 0x80 + n / 4096 % 64, 0x80 + n / 64 % 64, 0x80 + n % 64]

/-- Uppercase hexadecimal digit. -/
def hexChar (n : Nat) : Char :=
  if n < 10 then digitChar n
  else if n = 10 then 'A' else if n = 11 then 'B' else if n = 12 then 'C'
  else if n = 13 then 'D' else if n = 14 then 'E' else 'F'

/-- Characters `urllib.parse.quote` leaves unescaped with the default
`safe='/'`: ASCII alphanumerics, `_.-~` and `/`. -/
def isSafeChar (c : Char) : Bool :=
  c.isAlpha || c.isDigit || c = '_' || c = '.' || c = '-' || c = '~' || c = '/'

/-- `urllib.parse.quote` of one character. -/
def quoteChar (c : Char) : Str :=
  if isSafeChar c then [c]
  else (utf8Bytes c.toNat).foldr (fun b acc => '%' :: hexChar (b / 16) :: hexChar (b % 16) :: acc) []

/-- `urllib.parse.quote` with the default safe set. -/
def quoteStr : Str → Str
  | [] => []
  | c :: cs => quoteChar c ++ quoteStr cs

/-- String comparison `a < b` as in Python: lexicographic on code points,
a proper prefix is smaller. -/
def lexLt : Str → Str → Bool
  | [], [] => false
  | [], _ :: _ => true
  | _ :: _, [] => false
  | a :: as, b :: bs => if a < b then true else if a = b then lexLt as bs else false

/-- `a <= b` on strings. -/
def lexLe (a b : Str) : Bool := a = b || lexLt a b

/-- Stable insertion: place `x` before the first element `y` with `le x y`. -/
def insertLe (le : α → α → Bool) (x : α) : List α → List α
  | [] => [x]
  | y :: ys => if le x y then x :: y :: ys else y :: insertLe le x ys

/-- Stable sort (the order produced by Python's stable `list.sort` for the
corresponding key): with `le` a total preorder test, equal-key elements keep
their original relative order. -/
def isortLe (le : α → α → Bool) : List α → List α
  | [] => []
  | x :: xs => insertLe le x (isortLe le xs)

/-- Server configuration (process-wide, read-only): canonicalized media root,
working directory for `abspath`, field width `W`, the database epoch
identifier returned by `ThumbnailDatabase.get_database_guid`, the optional
extension allow-list, and the blacklisted folder names. -/
structure Cfg where
  root : Str
  cwd : Str
  W : Nat
  dbGuid : Str
  allowedExts : Option (List Str)
  blacklist : List Str

/-- The filesystem as seen by one listing request: `os.listdir`,
`os.path.isfile`, `os.path.isdir` and `os.path.getmtime` (`none` when the
path does not exist, in which case `getmtime` raises). -/
structure Env where
  listdir : Str → List Str
  isFile : Str → Bool
  isDir : Str → Bool
  mtime : Str → Option Nat

/-- Errors raised by `get_files_and_subfolders_in_subfolder`: the two
`ValueError`s (traversal, missing directory) and the `OSError` escaping from
`os.path.getmtime` during date sorting. -/
inductive LErr
  | traversal
  | notADir
  | osError
deriving DecidableEq

/-- `FileServer.is_blacklisted`: re-normalize, split on the separator, and
test each segment for membership in the blacklist. -/
def isBlacklisted (blacklist : List Str) (s : Str) : Bool :=
  (splitSep (normpath s)).any (fun part => part ∈ blacklist)

/-- `full_dir_path`: `os.path.abspath(os.path.join(media_root_dir, subfolder))`. -/
def fullDirPath (cfg : Cfg) (s : Str) : Str :=
  abspath cfg.cwd (pyJoin cfg.root s)

/-- The URL rendered for an eligible file `f` (lines 147-150): the subpath
segment is omitted when the resolved directory is the media root. -/
def renderUrl (baseUrl s f : Str) : Str :=
  if s = [] ∨ s = str "." then baseUrl ++ str "/files/" ++ quoteStr f
  else baseUrl ++ str "/files/" ++ s ++ '/' :: quoteStr f

/-- Eligible-file enumeration (lines 141-150): regular files whose lowercased
extension passes the allow-list (everything passes when no list is
configured), rendered as URLs in enumeration order. -/
def eligibleFiles (cfg : Cfg) (env : Env) (full s baseUrl : Str) : List Str :=
  ((env.listdir full).filter (fun f =>
      env.isFile (pyJoin full f) &&
      match cfg.allowedExts with
      | none => true
      | some exts => lowerStr (extOf f) ∈ exts)).map (renderUrl baseUrl s)

/-- Subfolder enumeration (lines 152-161): a synthetic `..` first when not at
the root, then directories in enumeration order. -/
def subfolderEntries (env : Env) (full s : Str) : List Str :=
  (if s = [] ∨ s = str "." then [] else [str ".."]) ++
    (env.listdir full).filter (fun d => env.isDir (pyJoin full d))

/-- The `date` branch builds `(file, getmtime(join(dir, basename(file))))`
pairs; `basename(file)` is taken from the rendered URL. `getmtime` raises
when the path does not exist. -/
def mtimePairs (env : Env) (full : Str) : List Str → Option (List (Str × Nat))
  | [] => some []
  | u :: us =>
    match env.mtime (pyJoin full (basename u)) with
    | some t => (mtimePairs env full us).map (fun rest => (u, t) :: rest)
    | none => none

/-- The sort policy (lines 163-169): `name` sorts the URL strings ascending;
`date` sorts by modification time descending (stable); anything else leaves
enumeration order. -/
def applySort (env : Env) (full : Str) (sortBy : Option Str) (files : List Str) :
    Except LErr (List Str) :=
  if sortBy = some (str "name") then .ok (isortLe lexLe files)
  else if sortBy = some (str "date") then
    match mtimePairs env full files with
    | some pairs => .ok ((isortLe (fun a b => Nat.ble b.2 a.2) pairs).map (fun p => p.1))
    | none => .error .osError
  else .ok files

/-- The display-path chain (lines 182-189), producing the argument of the
final `format_string` call: strip one leading `.` (formatting the rest),
strip one leading `/` (formatting the rest), then prepend `root/` (and
format) when the current value does not start with `root/`. -/
def displayArg (W : Nat) (s : Str) : Str :=
  let s := if hasPre (str ".") s then formatString W (s.drop 1) else s
  let s := if hasPre (str "/") s then formatString W (s.drop 1) else s
  if hasPre (str "root/") s then s else formatString W (str "root/" ++ s)

/-- Concatenation of a sequence of values, each framed by `format_string`. -/
def encodeFields (W : Nat) (vals : List Str) : Str :=
  (vals.map (formatString W)).foldr (· ++ ·) []

/-- The response assembly (lines 171-204): epoch identifier, display path,
subfolder count, file count, then each subfolder and each file, every piece
passed through `format_string`. -/
def encodeListing (W : Nat) (guid s : Str) (subs files : List Str) : Str :=
  formatString W guid
    ++ formatString W (displayArg W s)
    ++ formatString W (decRepr subs.length)
    ++ formatString W (decRepr files.length)
    ++ encodeFields W subs
    ++ encodeFields W files

/-- The blacklist-blocked response (line 135):
`format_string("0") + "|" + format_string("0")`. -/
def blockedResponse (W : Nat) : Str :=
  formatString W ['0'] ++ ['|'] ++ formatString W ['0']

/-- `FileServer.get_files_and_subfolders_in_subfolder`. -/
def getFilesAndSubfolders (cfg : Cfg) (env : Env) (sub0 baseUrl : Str)
    (sortBy : Option Str) : Except LErr Str :=
  let s := canonInput sub0
  let full := fullDirPath cfg s
  if hasPre cfg.root full = false then .error .traversal
  else if isBlacklisted cfg.blacklist s then .ok (blockedResponse cfg.W)
  else if env.isDir full = false then .error .notADir
  else
    let files := eligibleFiles cfg env full s baseUrl
    let subs := subfolderEntries env full s
    match applySort env full sortBy files with
    | .error e => .error e
    | .ok files2 => .ok (encodeListing cfg.W cfg.dbGuid s subs files2)

/-! ## The receiving side: fixed-width field extraction -/

/-- Cut a wire string into consecutive chunks of `W` characters (fuel-driven
so that the kernel can evaluate it; the fuel is the string length). -/
def chunksGo (W : Nat) : Nat → Str → List Str
  | _, [] => []
  | 0, l => [l]
  | fuel + 1, l => l.take W :: chunksGo W fuel (l.drop W)

/-- Fixed-width field extraction at width `W`. -/
def chunks (W : Nat) (l : Str) : List Str := chunksGo W l.length l

/-- Remove trailing fill characters (spaces). -/
def rstripSpaces (s : Str) : Str := (s.reverse.dropWhile (fun c => c = ' ')).reverse

/-- Recover a field's value: drop the delimiter position and the trailing
fill. -/
def stripField (W : Nat) (chunk : Str) : Str := rstripSpaces (chunk.take (W - 1))

/-- Value of a decimal digit character (garbage on non-digits; only applied
to digits in the proofs). -/
def digitVal (c : Char) : Nat := c.toNat - 48

/-- Parse a decimal count field. -/
def parseDec (s : Str) : Nat := s.foldl (fun a c => a * 10 + digitVal c) 0

/-- Fixed-width parsing of a listing response: split into `W`-chunks, read
the two count fields, and return the subfolder and file strings when the
number of entry fields matches the counts. -/
def parseListing (W : Nat) (wire : Str) : Option (List Str × List Str) :=
  match chunks W wire with
  | _ :: _ :: cM :: cN :: rest =>
    let M := parseDec (stripField W cM)
    let N := parseDec (stripField W cN)
    if rest.length = M + N then
      some ((rest.take M).map (stripField W), (rest.drop M).map (stripField W))
    else none
  | _ => none

/-! ## Thumbnail store and thumbnail generation -/

/-- Replace-or-insert into an association list, as SQLite's
`INSERT OR REPLACE` on the `original_path` primary key. -/
def upsert (k v : Str) : List (Str × Str) → List (Str × Str)
  | [] => [(k, v)]
  | (k', v') :: rest => if k' = k then (k, v) :: rest else (k', v') :: upsert k v rest

/-- Point lookup by primary key. -/
def lookupKey (k : Str) : List (Str × Str) → Option Str
  | [] => none
  | (k', v') :: rest => if k' = k then some v' else lookupKey k rest

/-- The SQLite store of `ThumbnailDatabase`: the `thumbnails` table
(`original_path` primary key → `thumbnail_guid`) and the single-row
`metadata` table (`CHECK (id = 1)` makes it at most one row, modelled as an
`Option`). -/
structure DbState where
  thumbs : List (Str × Str)
  meta : Option Str
deriving DecidableEq

/-- `ThumbnailDatabase._initialize_db`: create tables if missing and insert a
freshly generated GUID into `metadata` only when no row exists. -/
def initializeDb (fresh : Str) (db : DbState) : DbState :=
  match db.meta with
  | some _ => db
  | none => { db with meta := some fresh }

/-- `ThumbnailDatabase.get_database_guid`. -/
def getDatabaseGuid (db : DbState) : Str :=
  match db.meta with
  | some g => g
  | none => str "UNKNOWN"

/-- `ThumbnailDatabase.get_thumbnail_guid`. -/
def getThumbnailGuid (p : Str) (db : DbState) : Option Str := lookupKey p db.thumbs

/-- `ThumbnailDatabase.store_thumbnail_guid` (`INSERT OR REPLACE`). -/
def storeThumbnailGuid (p g : Str) (db : DbState) : DbState :=
  { db with thumbs := upsert p g db.thumbs }

/-- The write operations a store can receive over its lifetime. -/
inductive DbOp
  | init (fresh : Str)
  | store (p g : Str)

/-- Apply a sequence of operations to a store. -/
def applyOps : List DbOp → DbState → DbState
  | [], db => db
  | .init f :: ops, db => applyOps ops (initializeDb f db)
  | .store p g :: ops, db => applyOps ops (storeThumbnailGuid p g db)

/-- Process state for `FileServer.generate_thumbnail`: the store, the set of
files present in the thumbnail directory, a deterministic supply of fresh
GUIDs (`uuid.uuid4` modelled as a function of a counter), and a counter of
`Image.open` calls on source files. -/
structure ThumbState where
  db : DbState
  disk : List Str
  uuidFn : Nat → Str
  uuidNext : Nat
  opens : Nat

/-- `FileServer.get_thumbnail_path`: `os.path.join(thumbnail_dir, guid + ".jpg")`. -/
def thumbPath (thumbnailDir guid : Str) : Str :=
  pyJoin thumbnailDir (guid ++ str ".jpg")

/-- `FileServer.generate_thumbnail`.  `decodable p` tells whether opening,
converting, resizing and saving the source image at `p` succeeds; on failure
the function returns `None` (the `except` branch). -/
def generateThumbnail (thumbnailDir : Str) (decodable : Str → Bool)
    (st : ThumbState) (filepath : Str) : Option Str × ThumbState :=
  let gst :=
    match getThumbnailGuid filepath st.db with
    | some g => (g, st)
    | none =>
      let g := st.uuidFn st.uuidNext
      (g, { st with db := storeThumbnailGuid filepath g st.db,
                    uuidNext := st.uuidNext + 1 })
  let g := gst.1
  let st := gst.2
  let tpath := thumbPath thumbnailDir g
  if tpath ∈ st.disk then (some tpath, st)
  else
    let st := { st with opens := st.opens + 1 }
    if decodable filepath then (some tpath, { st with disk := tpath :: st.disk })
    else (none, st)

/-! ## Store lemmas -/

theorem lookupKey_upsert_self (k v : Str) (l : List (Str × Str)) :
    lookupKey k (upsert k v l) = some v := by
  induction l with
  | nil => simp [upsert, lookupKey]
  | cons hd tl ih =>
    by_cases h : hd.1 = k
    · simp [upsert, lookupKey, h]
    · simp [upsert, lookupKey, h, ih]

/-- The guid and post-state produced by the lookup-or-create step of
`generate_thumbnail`, when a mapping already exists. -/
theorem generateThumbnail_eq (tdir : Str) (dec : Str → Bool) (st : ThumbState)
    (fp g : Str) (hdb : getThumbnailGuid fp st.db = some g) :
    generateThumbnail tdir dec st fp =
      (if thumbPath tdir g ∈ st.disk then (some (thumbPath tdir g), st)
       else if dec fp then
        (some (thumbPath tdir g), { st with opens := st.opens + 1,
                                            disk := thumbPath tdir g :: st.disk })
       else (none, { st with opens := st.opens + 1 })) := by
  simp only [generateThumbnail, hdb]

theorem generateThumbnail_eq_none (tdir : Str) (dec : Str → Bool) (st : ThumbState)
    (fp : Str) (hdb : getThumbnailGuid fp st.db = none) :
    generateThumbnail tdir dec st fp =
      (if thumbPath tdir (st.uuidFn st.uuidNext) ∈ st.disk then
        (some (thumbPath tdir (st.uuidFn st.uuidNext)),
          { st with db := storeThumbnailGuid fp (st.uuidFn st.uuidNext) st.db,
                    uuidNext := st.uuidNext + 1 })
       else if dec fp then
        (some (thumbPath tdir (st.uuidFn st.uuidNext)),
          { st with db := storeThumbnailGuid fp (st.uuidFn st.uuidNext) st.db,
                    uuidNext := st.uuidNext + 1, opens := st.opens + 1,
                    disk := thumbPath tdir (st.uuidFn st.uuidNext) :: st.disk })
       else (none,
          { st with db := storeThumbnailGuid fp (st.uuidFn st.uuidNext) st.db,
                    uuidNext := st.uuidNext + 1, opens := st.opens + 1 })) := by
  simp only [generateThumbnail, hdb]

/-- After any single `generate_thumbnail` call, the store maps the file to an
identifier, and any returned path is the thumbnail path of that identifier. -/
theorem generateThumbnail_result (tdir : Str) (dec : Str → Bool) (st : ThumbState)
    (fp : Str) :
    ∃ g, getThumbnailGuid fp (generateThumbnail tdir dec st fp).2.db = some g
      ∧ ∀ p, (generateThumbnail tdir dec st fp).1 = some p → p = thumbPath tdir g := by
  cases hdb : getThumbnailGuid fp st.db with
  | some g =>
    refine ⟨g, ?_, ?_⟩ <;> rw [generateThumbnail_eq tdir dec st fp g hdb]
    · split <;> [skip; split] <;> simpa [storeThumbnailGuid, getThumbnailGuid] using hdb
    · split <;> [skip; split] <;> simp_all
  | none =>
    refine ⟨st.uuidFn st.uuidNext, ?_, ?_⟩ <;>
      rw [generateThumbnail_eq_none tdir dec st fp hdb]
    · split <;> [skip; split] <;>
        simp [storeThumbnailGuid, getThumbnailGuid, lookupKey_upsert_self]
    · split <;> [skip; split] <;> simp_all

/-- A `generate_thumbnail` call never removes the mapping it finds or
creates. -/
theorem generateThumbnail_db_stable (tdir : Str) (dec : Str → Bool) (st : ThumbState)
    (fp g : Str) (hdb : getThumbnailGuid fp st.db = some g) :
    getThumbnailGuid fp (generateThumbnail tdir dec st fp).2.db = some g := by
  rw [generateThumbnail_eq tdir dec st fp g hdb]
  split <;> [skip; split] <;> simpa using hdb

/-- C8: once the identifier for a file is stored and its thumbnail exists on
disk, `generate_thumbnail` returns `thumbnailDir/{identifier}.jpg` with the
state (including the count of source-image opens) unchanged; and across two
successive calls for the same file, any two returned thumbnail paths are
equal, each being the thumbnail path of the stored identifier. -/
theorem generate_thumbnail_idempotent (tdir : Str) (dec : Str → Bool)
    (st : ThumbState) (fp : Str) :
    (∀ g, getThumbnailGuid fp st.db = some g → thumbPath tdir g ∈ st.disk →
      generateThumbnail tdir dec st fp = (some (thumbPath tdir g), st))
    ∧ (∀ p1 p2, (generateThumbnail tdir dec st fp).1 = some p1 →
        (generateThumbnail tdir dec (generateThumbnail tdir dec st fp).2 fp).1 = some p2 →
        p1 = p2) := by
  constructor
  · intro g hdb hdisk
    rw [generateThumbnail_eq tdir dec st fp g hdb]
    simp [hdisk]
  · intro p1 p2 h1 h2
    obtain ⟨g, hg, hpath⟩ := generateThumbnail_result tdir dec st fp
    obtain ⟨g', hg', hpath'⟩ :=
      generateThumbnail_result tdir dec (generateThumbnail tdir dec st fp).2 fp
    have hstable := generateThumbnail_db_stable tdir dec
      (generateThumbnail tdir dec st fp).2 fp g hg
    have hgg : g' = g := Option.some.inj (hg'.symm.trans hstable)
    subst hgg
    rw [hpath p1 h1, hpath' p2 h2]

/-- Witness for C8 at a concrete state: a stored identifier `"i"` whose
thumbnail file is on disk is returned immediately with the state untouched. -/
theorem generate_thumbnail_idempotent_witness :
    getThumbnailGuid (str "/m/a.png")
        (DbState.mk [(str "/m/a.png", str "i")] (some (str "d"))) = some (str "i")
    ∧ generateThumbnail (str "/t") (fun _ => false)
        (ThumbState.mk (DbState.mk [(str "/m/a.png", str "i")] (some (str "d")))
          [str "/t/i.jpg"] (fun _ => []) 0 0) (str "/m/a.png") =
      (some (thumbPath (str "/t") (str "i")),
        ThumbState.mk (DbState.mk [(str "/m/a.png", str "i")] (some (str "d")))
          [str "/t/i.jpg"] (fun _ => []) 0 0) := by
  refine ⟨by decide, ?_⟩
  have h := (generate_thumbnail_idempotent (str "/t") (fun _ => false)
      (ThumbState.mk (DbState.mk [(str "/m/a.png", str "i")] (some (str "d")))
        [str "/t/i.jpg"] (fun _ => []) 0 0) (str "/m/a.png")).1
      (str "i") (by decide) (by decide)
  exact h

/-- C9: the epoch identifier: `_initialize_db` creates it exactly when the
metadata row is absent; once present it survives any sequence of store
operations (further initializations and thumbnail upserts), and
`get_database_guid` returns the byte-identical token after any such
sequence. -/
theorem database_guid_invariant (db : DbState) (ops : List DbOp) :
    (∀ f, db.meta = none → (initializeDb f db).meta = some f)
    ∧ (∀ g, db.meta = some g →
        (applyOps ops db).meta = some g ∧ getDatabaseGuid (applyOps ops db) = g) := by
  constructor
  · intro f h
    simp [initializeDb, h]
  · intro g h
    suffices hmeta : (applyOps ops db).meta = some g by
      exact ⟨hmeta, by simp [getDatabaseGuid, hmeta]⟩
    induction ops generalizing db with
    | nil => simpa [applyOps] using h
    | cons op rest ih =>
      cases op with
      | init f => exact ih (initializeDb f db) (by simp [initializeDb, h])
      | store p v => exact ih (storeThumbnailGuid p v db) (by simp [storeThumbnailGuid, h])

/-- Witness for C9: a store holding guid `"g"` returns it unchanged after an
initialization attempt and an upsert. -/
theorem database_guid_invariant_witness :
    (DbState.mk [] none).meta = none
    ∧ (initializeDb (str "f") (DbState.mk [] none)).meta = some (str "f")
    ∧ (DbState.mk [] (some (str "g"))).meta = some (str "g")
    ∧ getDatabaseGuid (applyOps [DbOp.init (str "f"), DbOp.store (str "p") (str "i")]
        (DbState.mk [] (some (str "g")))) = str "g" := by
  refine ⟨rfl, ?_, rfl, ?_⟩
  · exact (database_guid_invariant (DbState.mk [] none) []).1 (str "f") rfl
  · exact ((database_guid_invariant (DbState.mk [] (some (str "g")))
      [DbOp.init (str "f"), DbOp.store (str "p") (str "i")]).2 (str "g") rfl).2

/-- C10: when no identifier mapping exists and decoding fails,
`generate_thumbnail` returns `None`, yet the freshly generated identifier has
already been persisted; no thumbnail file is written, and a subsequent call
reuses the same identifier (the uuid counter does not advance again and any
path the second call returns is the same thumbnail path). -/
theorem generate_thumbnail_persists_guid_on_failure (tdir : Str)
    (dec : Str → Bool) (st : ThumbState) (fp : Str)
    (h1 : getThumbnailGuid fp st.db = none)
    (h2 : dec fp = false)
    (h3 : thumbPath tdir (st.uuidFn st.uuidNext) ∉ st.disk) :
    (generateThumbnail tdir dec st fp).1 = none
    ∧ getThumbnailGuid fp (generateThumbnail tdir dec st fp).2.db =
        some (st.uuidFn st.uuidNext)
    ∧ (generateThumbnail tdir dec st fp).2.disk = st.disk
    ∧ (generateThumbnail tdir dec st fp).2.uuidNext = st.uuidNext + 1
    ∧ (generateThumbnail tdir dec
          (generateThumbnail tdir dec st fp).2 fp).2.uuidNext = st.uuidNext + 1
    ∧ ∀ p, (generateThumbnail tdir dec
          (generateThumbnail tdir dec st fp).2 fp).1 = some p →
        p = thumbPath tdir (st.uuidFn st.uuidNext) := by
  have hfix := generateThumbnail_eq_none tdir dec st fp h1
  rw [if_neg h3, h2] at hfix
  rw [if_neg (by simp)] at hfix
  have hdb2 : getThumbnailGuid fp (generateThumbnail tdir dec st fp).2.db =
      some (st.uuidFn st.uuidNext) := by
    rw [hfix]
    simp [getThumbnailGuid, storeThumbnailGuid, lookupKey_upsert_self]
  have hdisk2 : (generateThumbnail tdir dec st fp).2.disk = st.disk := by rw [hfix]
  have h3' : thumbPath tdir (st.uuidFn st.uuidNext) ∉
      (generateThumbnail tdir dec st fp).2.disk := by
    rw [hdisk2]; exact h3
  have hfix2 := generateThumbnail_eq tdir dec (generateThumbnail tdir dec st fp).2 fp
    (st.uuidFn st.uuidNext) hdb2
  rw [if_neg h3', h2] at hfix2
  rw [if_neg (by simp)] at hfix2
  refine ⟨by rw [hfix], hdb2, hdisk2, by rw [hfix], ?_, ?_⟩
  · rw [hfix2, hfix]
  · intro p hp
    rw [hfix2] at hp
    exact absurd hp (by simp)

/-- Witness for C10 at a concrete empty store with a failing decoder. -/
theorem generate_thumbnail_persists_guid_on_failure_witness :
    getThumbnailGuid (str "/m/a.png") (DbState.mk [] (some (str "d"))) = none
    ∧ (generateThumbnail (str "/t") (fun _ => false)
        (ThumbState.mk (DbState.mk [] (some (str "d"))) [] (fun n => decRepr n) 0 0)
        (str "/m/a.png")).1 = none
    ∧ getThumbnailGuid (str "/m/a.png")
        (generateThumbnail (str "/t") (fun _ => false)
          (ThumbState.mk (DbState.mk [] (some (str "d"))) [] (fun n => decRepr n) 0 0)
          (str "/m/a.png")).2.db = some (decRepr 0) := by
  have h := generate_thumbnail_persists_guid_on_failure (str "/t") (fun _ => false)
    (ThumbState.mk (DbState.mk [] (some (str "d"))) [] (fun n => decRepr n) 0 0)
    (str "/m/a.png") (by decide) rfl (by decide)
  exact ⟨by decide, h.1, h.2.1⟩

/-! ## Prefix-test lemmas -/

theorem hasPre_refl (l : Str) : hasPre l l = true := by
  induction l with
  | nil => rfl
  | cons c cs ih => simp [hasPre, ih]

theorem hasPre_of_append (a b c : Str) (h : hasPre (a ++ b) c = true) :
    hasPre a c = true := by
  induction a generalizing c with
  | nil => rfl
  | cons x xs ih =>
    cases c with
    | nil => exact absurd h (by simp [hasPre])
    | cons y cs =>
      simp only [List.cons_append, hasPre, Bool.and_eq_true] at h ⊢
      exact ⟨h.1, ih cs h.2⟩

/-- `applySort` can only fail with the `getmtime` error. -/
theorem applySort_ne_traversal (env : Env) (full : Str) (sortBy : Option Str)
    (files : List Str) :
    applySort env full sortBy files ≠ Except.error .traversal := by
  unfold applySort
  split_ifs
  · simp
  · cases mtimePairs env full files <;> simp
  · simp

/-- C2: the containment check.  Whenever the canonicalized join of the
normalized input onto the media root does not begin (as a string) with the
canonicalized media root, the request fails with the traversal `ValueError`
— for every filesystem, so nothing is enumerated; and whenever the resolved
path is the root itself or lies below `root/`, the traversal error is not
raised. -/
theorem traversal_rejection (cfg : Cfg) (env : Env) (s baseUrl : Str)
    (sortBy : Option Str) :
    (hasPre cfg.root (fullDirPath cfg (canonInput s)) = false →
      getFilesAndSubfolders cfg env s baseUrl sortBy = .error .traversal)
    ∧ ((fullDirPath cfg (canonInput s) = cfg.root ∨
        hasPre (cfg.root ++ ['/']) (fullDirPath cfg (canonInput s)) = true) →
      getFilesAndSubfolders cfg env s baseUrl sortBy ≠ .error .traversal) := by
  constructor
  · intro h
    simp [getFilesAndSubfolders, h]
  · intro h
    have hpre : hasPre cfg.root (fullDirPath cfg (canonInput s)) = true := by
      rcases h with h | h
      · rw [h]; exact hasPre_refl cfg.root
      · exact hasPre_of_append cfg.root ['/'] _ h
    simp only [getFilesAndSubfolders, hpre]
    intro hcontra
    rw [if_neg (by simp)] at hcontra
    split_ifs at hcontra
    · exact absurd hcontra (by simp)
    · revert hcontra
      split
      · rename_i e heq
        intro hcontra
        have he : e = LErr.traversal := by simpa using hcontra
        subst he
        exact applySort_ne_traversal env _ sortBy _ heq
      · intro hcontra
        exact absurd hcontra (by simp)

/-- Concrete configuration for witnesses and counterexamples: media root
`/m/media`, width 8, blacklist `["ignore"]`, all extensions allowed. -/
def cfgA : Cfg :=
  { root := str "/m/media", cwd := str "/", W := 8, dbGuid := str "g",
    allowedExts := none, blacklist := [str "ignore"] }

/-- Concrete filesystem: only the root and `/m/media/a` are directories, no
files anywhere. -/
def envA : Env :=
  { listdir := fun _ => [],
    isFile := fun _ => false,
    isDir := fun d => d = str "/m/media" || d = str "/m/media/a",
    mtime := fun _ => none }

/-- Concrete filesystem with content: the root holds the file `photo.png`
and the subfolder `vacation`. -/
def envB : Env :=
  { listdir := fun d => if d = str "/m/media" then [str "photo.png", str "vacation"] else [],
    isFile := fun p => p = str "/m/media/photo.png",
    isDir := fun p => p = str "/m/media" || p = str "/m/media/vacation",
    mtime := fun _ => none }

/-- Witness for C2: `../x` escapes `/m/media` and is rejected; `a` is
contained and is not rejected with the traversal error. -/
theorem traversal_rejection_witness :
    hasPre cfgA.root (fullDirPath cfgA (canonInput (str "../x"))) = false
    ∧ getFilesAndSubfolders cfgA envA (str "../x") (str "u") none = .error .traversal
    ∧ hasPre (cfgA.root ++ ['/']) (fullDirPath cfgA (canonInput (str "a"))) = true
    ∧ getFilesAndSubfolders cfgA envA (str "a") (str "u") none ≠ .error .traversal := by
  refine ⟨by decide, ?_, by decide, ?_⟩
  · exact (traversal_rejection cfgA envA (str "../x") (str "u") none).1 (by decide)
  · exact (traversal_rejection cfgA envA (str "a") (str "u") none).2 (Or.inr (by decide))

/-- C5 counterexample: the traversal check precedes the blacklist check, so
an input whose normalized relative path contains the blacklisted segment
`ignore` but whose resolution escapes the root raises the traversal
`ValueError` instead of returning the blocked empty listing — refuting the
claim that every blacklisted input yields a zero-count response without
error. -/
theorem blacklist_shortcircuit_counterexample :
    isBlacklisted cfgA.blacklist (canonInput (str "../ignore")) = true
    ∧ getFilesAndSubfolders cfgA envA (str "../ignore") (str "u") none =
        .error .traversal := by
  exact ⟨by decide, rfl⟩

/-- C5 (amended: restricted to inputs that pass the containment check): for
every such input whose normalized relative path contains a blacklisted
segment, the function returns the fixed blocked response — two zero-count
fields and no entry fields — without error, for every filesystem (so
regardless of directory contents, and even when the resolved directory does
not exist, the blacklist check preceding the existence check). -/
theorem blacklist_shortcircuit (cfg : Cfg) (env : Env) (s baseUrl : Str)
    (sortBy : Option Str)
    (hpass : hasPre cfg.root (fullDirPath cfg (canonInput s)) = true)
    (hbl : isBlacklisted cfg.blacklist (canonInput s) = true) :
    getFilesAndSubfolders cfg env s baseUrl sortBy = .ok (blockedResponse cfg.W) := by
  simp [getFilesAndSubfolders, hpass, hbl]

/-- Witness for C5 at `ignore/x`: contained, blacklisted, and the resolved
directory does not even exist in `envA`, yet the blocked response is
returned. -/
theorem blacklist_shortcircuit_witness :
    hasPre cfgA.root (fullDirPath cfgA (canonInput (str "ignore/x"))) = true
    ∧ isBlacklisted cfgA.blacklist (canonInput (str "ignore/x")) = true
    ∧ envA.isDir (fullDirPath cfgA (canonInput (str "ignore/x"))) = false
    ∧ getFilesAndSubfolders cfgA envA (str "ignore/x") (str "u") none =
        .ok (blockedResponse cfgA.W) := by
  refine ⟨by decide, by decide, by decide, ?_⟩
  exact blacklist_shortcircuit cfgA envA (str "ignore/x") (str "u") none
    (by decide) (by decide)

/-! ## Encoder framing lemmas -/

theorem formatString_length (W : Nat) (hW : 1 ≤ W) (v : Str) :
    (formatString W v).length = W := by
  simp only [formatString, List.length_append, List.length_take, List.length_replicate,
    List.length_cons, List.length_nil]
  omega

theorem formatString_getLast (W : Nat) (v : Str) :
    (formatString W v).getLast? = some '|' := by
  simp [formatString]

theorem encodeFields_cons (W : Nat) (v : Str) (vs : List Str) :
    encodeFields W (v :: vs) = formatString W v ++ encodeFields W vs := rfl

theorem encodeFields_append (W : Nat) (A B : List Str) :
    encodeFields W (A ++ B) = encodeFields W A ++ encodeFields W B := by
  induction A with
  | nil => simp [encodeFields]
  | cons a as ih =>
    rw [List.cons_append, encodeFields_cons, encodeFields_cons, ih, List.append_assoc]

theorem encodeListing_eq (W : Nat) (guid s : Str) (subs files : List Str) :
    encodeListing W guid s subs files =
      encodeFields W ([guid, displayArg W s, decRepr subs.length,
        decRepr files.length] ++ subs ++ files) := by
  rw [encodeFields_append, encodeFields_append]
  simp [encodeListing, encodeFields_cons, encodeFields, List.append_assoc]

theorem encodeFields_length (W : Nat) (hW : 1 ≤ W) (vals : List Str) :
    (encodeFields W vals).length = vals.length * W := by
  induction vals with
  | nil => simp [encodeFields]
  | cons v vs ih =>
    rw [encodeFields_cons, List.length_append, formatString_length W hW, ih,
      List.length_cons]
    ring

theorem chunksGo_encodeFields (W : Nat) (hW : 1 ≤ W) (vals : List Str) :
    ∀ fuel, (encodeFields W vals).length ≤ fuel →
      chunksGo W fuel (encodeFields W vals) = vals.map (formatString W) := by
  induction vals with
  | nil => intro fuel _; cases fuel <;> simp [encodeFields, chunksGo]
  | cons v vs ih =>
    intro fuel hfuel
    have hlen : (formatString W v).length = W := formatString_length W hW v
    obtain ⟨c, cs, hcons⟩ : ∃ c cs, formatString W v = c :: cs := by
      cases hfv : formatString W v with
      | nil => rw [hfv] at hlen; simp at hlen; omega
      | cons c cs => exact ⟨c, cs, rfl⟩
    obtain ⟨f, rfl⟩ : ∃ f, fuel = f + 1 := by
      rw [encodeFields_cons, List.length_append, hlen] at hfuel
      cases fuel with
      | zero => omega
      | succ f => exact ⟨f, rfl⟩
    rw [encodeFields_cons, hcons, List.cons_append]
    show (c :: (cs ++ encodeFields W vs)).take W ::
        chunksGo W f ((c :: (cs ++ encodeFields W vs)).drop W) = _
    rw [← List.cons_append, ← hcons]
    rw [List.take_left' hlen, List.drop_left' hlen, List.map_cons, ih f (by
      rw [encodeFields_cons, List.length_append, hlen] at hfuel; omega)]

theorem chunks_encodeFields (W : Nat) (hW : 1 ≤ W) (vals : List Str) :
    chunks W (encodeFields W vals) = vals.map (formatString W) :=
  chunksGo_encodeFields W hW vals _ le_rfl

theorem encodeFields_pipes (W : Nat) (hW : 1 ≤ W) (vals : List Str) :
    ∀ k, 1 ≤ k → k * W ≤ (encodeFields W vals).length →
      (encodeFields W vals).getD (k * W - 1) 'x' = '|' := by
  induction vals with
  | nil =>
    intro k hk hle
    simp only [encodeFields, List.map_nil, List.foldr_nil, List.length_nil] at hle
    have h1 : 0 < k * W := Nat.mul_pos (by omega) (by omega)
    omega
  | cons v vs ih =>
    intro k hk hle
    have hlen : (formatString W v).length = W := formatString_length W hW v
    rw [encodeFields_cons] at hle ⊢
    rcases Nat.lt_or_ge k 2 with hk2 | hk2
    · have hk1 : k = 1 := by omega
      subst hk1
      have hlt : 1 * W - 1 < (formatString W v).length := by omega
      rw [List.getD_append _ _ _ _ hlt]
      have hsplit : formatString W v =
          ((v ++ List.replicate ((W - 1) - v.length) ' ').take (W - 1)) ++ ['|'] := rfl
      have hl2 : ((v ++ List.replicate ((W - 1) - v.length) ' ').take (W - 1)).length =
          W - 1 := by
        have hcopy := hlen
        rw [hsplit] at hcopy
        simp only [List.length_append, List.length_cons, List.length_nil] at hcopy
        omega
      rw [hsplit, List.getD_append_right _ _ _ _ (by omega)]
      simp [hl2]
    · have hmul : k * W = (k - 1) * W + W := by
        rw [Nat.sub_mul, Nat.one_mul]
        have : W ≤ k * W := Nat.le_mul_of_pos_left W (by omega)
        omega
      have h2W : 2 * W ≤ k * W := Nat.mul_le_mul_right W hk2
      rw [List.length_append, hlen] at hle
      rw [List.getD_append_right _ _ _ _ (by omega), hlen]
      have harith : k * W - 1 - W = (k - 1) * W - 1 := by omega
      rw [harith]
      exact ih (k - 1) (by omega) (by omega)

/-! ## Field-value recovery lemmas -/

theorem dropWhile_replicate_append (p : Char → Bool) (c : Char) (hp : p c = true)
    (k : Nat) (l : Str) :
    (List.replicate k c ++ l).dropWhile p = l.dropWhile p := by
  induction k with
  | zero => simp
  | succ k ih => simp [List.replicate_succ, List.dropWhile_cons, hp, ih]

theorem rstripSpaces_pad (v : Str) (k : Nat) (hv : v.getLast? ≠ some ' ') :
    rstripSpaces (v ++ List.replicate k ' ') = v := by
  unfold rstripSpaces
  rw [List.reverse_append, List.reverse_replicate,
    dropWhile_replicate_append _ ' ' (by simp) k v.reverse]
  cases hrv : v.reverse with
  | nil => simpa using congrArg List.reverse hrv
  | cons h t =>
    have hh : h ≠ ' ' := by
      intro hcon
      apply hv
      rw [← List.head?_reverse, hrv, hcon]
      rfl
    rw [List.dropWhile_cons, if_neg (by simp [hh]), ← hrv, List.reverse_reverse]

theorem stripField_formatString (W : Nat) (v : Str) (hlen : v.length ≤ W - 1)
    (hlast : v.getLast? ≠ some ' ') :
    stripField W (formatString W v) = v := by
  unfold stripField formatString
  have hpad : (v ++ List.replicate ((W - 1) - v.length) ' ').take (W - 1) =
      v ++ List.replicate ((W - 1) - v.length) ' ' := by
    apply List.take_of_length_le
    simp only [List.length_append, List.length_replicate]
    omega
  have hl : (v ++ List.replicate ((W - 1) - v.length) ' ').length = W - 1 := by
    simp only [List.length_append, List.length_replicate]
    omega
  rw [hpad, List.take_left' hl, rstripSpaces_pad v _ hlast]

/-! ## Decimal count-field lemmas -/

theorem digitChar_ne_space : ∀ d < 10, digitChar d ≠ ' ' := by decide

theorem digitVal_digitChar : ∀ d < 10, digitVal (digitChar d) = d := by decide

theorem decReprGo_eq_digits (n : Nat) : ∀ fuel, n ≤ fuel → 1 ≤ n →
    decReprGo fuel n = ((Nat.digits 10 n).reverse).map digitChar := by
  induction n using Nat.strong_induction_on with
  | _ n ih =>
    intro fuel hfuel hn
    match fuel with
    | 0 => omega
    | f + 1 =>
      by_cases h10 : n < 10
      · simp only [decReprGo, if_pos h10]
        rw [Nat.digits_def' (by norm_num : (1:ℕ) < 10) (by omega),
          Nat.div_eq_of_lt h10, Nat.mod_eq_of_lt h10]
        simp
      · have hd1 : n / 10 < n := Nat.div_lt_self (by omega) (by norm_num)
        have hd2 : 1 ≤ n / 10 := (Nat.one_le_div_iff (by norm_num)).mpr (by omega)
        simp only [decReprGo, if_neg h10]
        rw [Nat.digits_def' (by norm_num : (1:ℕ) < 10) (by omega : 0 < n),
          List.reverse_cons, List.map_append, ih (n / 10) hd1 f (by omega) hd2]
        rfl

/-- The fuel-driven rendering agrees with `Nat.digits`. -/
theorem decRepr_eq_digits (n : Nat) :
    decRepr n = if n = 0 then ['0'] else ((Nat.digits 10 n).reverse).map digitChar := by
  unfold decRepr
  split_ifs with h
  · subst h; rfl
  · exact decReprGo_eq_digits n (n + 1) (by omega) (by omega)

theorem decRepr_getLast_ne_space (n : Nat) : (decRepr n).getLast? ≠ some ' ' := by
  intro hcon
  have hmem : ' ' ∈ decRepr n := List.mem_of_getLast?_eq_some hcon
  rw [decRepr_eq_digits] at hmem
  split_ifs at hmem
  · simp at hmem
  · rw [List.mem_map] at hmem
    obtain ⟨d, hd, hdc⟩ := hmem
    have hlt : d < 10 :=
      Nat.digits_lt_base (by norm_num) (List.mem_reverse.mp hd)
    exact digitChar_ne_space d hlt hdc

theorem decRepr_length_pos (n : Nat) : 1 ≤ (decRepr n).length := by
  rw [decRepr_eq_digits]
  split_ifs with h
  · simp
  · simp only [List.length_map, List.length_reverse]
    have hne : Nat.digits 10 n ≠ [] := Nat.digits_ne_nil_iff_ne_zero.mpr h
    cases hd : Nat.digits 10 n with
    | nil => exact absurd hd hne
    | cons a l => simp

theorem foldl_digits_reverse (L : List Nat) (a : Nat) :
    List.foldl (fun acc d => acc * 10 + d) a L.reverse =
      a * 10 ^ L.length + Nat.ofDigits 10 L := by
  induction L generalizing a with
  | nil => simp [Nat.ofDigits]
  | cons d ds ih =>
    rw [List.reverse_cons, List.foldl_append, ih a, List.foldl_cons, List.foldl_nil,
      Nat.ofDigits_cons, List.length_cons]
    ring

theorem parseDec_map_digitChar (L : List Nat) (hL : ∀ d ∈ L, d < 10) (a : Nat) :
    List.foldl (fun acc c => acc * 10 + digitVal c) a (L.map digitChar) =
      List.foldl (fun acc d => acc * 10 + d) a L := by
  induction L generalizing a with
  | nil => rfl
  | cons d ds ih =>
    simp only [List.map_cons, List.foldl_cons]
    rw [digitVal_digitChar d (hL d (by simp))]
    exact ih (fun x hx => hL x (by simp [hx])) _

theorem parseDec_decRepr (n : Nat) : parseDec (decRepr n) = n := by
  rw [decRepr_eq_digits]
  unfold parseDec
  split_ifs with h
  · subst h; decide
  · have hlt : ∀ d ∈ (Nat.digits 10 n).reverse, d < 10 := fun d hd =>
      Nat.digits_lt_base (by norm_num) (List.mem_reverse.mp hd)
    rw [parseDec_map_digitChar _ hlt 0]
    have hrev : ((Nat.digits 10 n).reverse).reverse = Nat.digits 10 n :=
      List.reverse_reverse _
    calc List.foldl (fun acc d => acc * 10 + d) 0 (Nat.digits 10 n).reverse
        = List.foldl (fun acc d => acc * 10 + d) 0
            (((Nat.digits 10 n).reverse).reverse).reverse := by rw [hrev]
      _ = 0 * 10 ^ (((Nat.digits 10 n).reverse).reverse).length +
            Nat.ofDigits 10 (((Nat.digits 10 n).reverse).reverse) :=
          foldl_digits_reverse _ 0
      _ = n := by rw [hrev]; simpa using Nat.ofDigits_digits 10 n

/-! ## Shape of successful (non-blocked) responses -/

/-- Every successful non-blocked response is the encoding of the built
subfolder entries and post-sort file entries. -/
theorem getFilesAndSubfolders_ok_eq (cfg : Cfg) (env : Env) (s baseUrl : Str)
    (sortBy : Option Str) (r : Str)
    (hbl : isBlacklisted cfg.blacklist (canonInput s) = false)
    (hok : getFilesAndSubfolders cfg env s baseUrl sortBy = .ok r) :
    ∃ files2,
      applySort env (fullDirPath cfg (canonInput s)) sortBy
        (eligibleFiles cfg env (fullDirPath cfg (canonInput s)) (canonInput s) baseUrl) =
        .ok files2
      ∧ r = encodeListing cfg.W cfg.dbGuid (canonInput s)
          (subfolderEntries env (fullDirPath cfg (canonInput s)) (canonInput s)) files2 := by
  simp only [getFilesAndSubfolders] at hok
  split_ifs at hok with h1 h2 h3
  · exact absurd h2 (by simp [hbl])
  · revert hok
    split
    · intro hok
      exact absurd hok (by simp)
    · rename_i files2 heq
      intro hok
      exact ⟨files2, heq, (Except.ok.inj hok).symm⟩

/-- C3 counterexample: for the blacklisted input `ignore` the code returns
the minimal blocked variant `format_string("0") + "|" + format_string("0")`,
whose length `2*W + 1` (here 17 with `W = 8`) is not a multiple of `W` —
refuting the claim that every response, including the blocked variant, is a
concatenation of exact `W`-character fields. -/
theorem fixed_width_framing_counterexample :
    getFilesAndSubfolders cfgA envA (str "ignore") (str "u") none =
      .ok (blockedResponse 8)
    ∧ (blockedResponse 8).length = 17
    ∧ ¬ (8 ∣ (blockedResponse 8).length) := by
  exact ⟨rfl, by decide, by decide⟩

/-- C3 (amended: the fixed-width framing holds for every successful
non-blocked response; the blocked variant instead has length `2*W + 1`):
a non-blocked `ok` response is a concatenation of `format_string` fields —
each value left-justified, space-filled, truncated to `W-1` characters and
terminated by `|` — hence its length is an exact multiple of `W` and the
character at every index `k*W - 1` is `|`. -/
theorem fixed_width_framing (cfg : Cfg) (env : Env) (s baseUrl : Str)
    (sortBy : Option Str) (r : Str) (hW : 1 ≤ cfg.W)
    (hbl : isBlacklisted cfg.blacklist (canonInput s) = false)
    (hok : getFilesAndSubfolders cfg env s baseUrl sortBy = .ok r) :
    (∃ vals, r = encodeFields cfg.W vals)
    ∧ cfg.W ∣ r.length
    ∧ (∀ k, 1 ≤ k → k * cfg.W ≤ r.length → r.getD (k * cfg.W - 1) 'x' = '|')
    ∧ (blockedResponse cfg.W).length = 2 * cfg.W + 1 := by
  obtain ⟨files2, _, hr⟩ :=
    getFilesAndSubfolders_ok_eq cfg env s baseUrl sortBy r hbl hok
  rw [hr, encodeListing_eq]
  refine ⟨⟨_, rfl⟩, ?_, encodeFields_pipes cfg.W hW _, ?_⟩
  · rw [encodeFields_length cfg.W hW]
    exact dvd_mul_left cfg.W _
  · simp only [blockedResponse, List.length_append, formatString_length cfg.W hW,
      List.length_cons, List.length_nil]
    omega

/-- Witness for C3 at the root listing of `envB`. -/
theorem fixed_width_framing_witness :
    ∃ r, getFilesAndSubfolders cfgA envB (str "") (str "u") (some (str "name")) = .ok r
      ∧ (∃ vals, r = encodeFields cfgA.W vals)
      ∧ cfgA.W ∣ r.length
      ∧ (∀ k, 1 ≤ k → k * cfgA.W ≤ r.length → r.getD (k * cfgA.W - 1) 'x' = '|')
      ∧ (blockedResponse cfgA.W).length = 2 * cfgA.W + 1 := by
  refine ⟨_, rfl, ?_⟩
  exact fixed_width_framing cfgA envB (str "") (str "u") (some (str "name")) _
    (by decide) (by decide) rfl

/-- C4: the field sequence of every successful non-blocked response, read
back by fixed-width extraction, is exactly: epoch identifier, canonical
display path, subfolder count (decimal), file count (decimal), the subfolder
entries in built order, the file entries in built (post-sort) order — and
nothing else (`4 + M + N` fields in total). -/
theorem field_sequence (cfg : Cfg) (env : Env) (s baseUrl : Str)
    (sortBy : Option Str) (r : Str) (hW : 1 ≤ cfg.W)
    (hbl : isBlacklisted cfg.blacklist (canonInput s) = false)
    (hok : getFilesAndSubfolders cfg env s baseUrl sortBy = .ok r) :
    ∃ files2,
      applySort env (fullDirPath cfg (canonInput s)) sortBy
        (eligibleFiles cfg env (fullDirPath cfg (canonInput s)) (canonInput s) baseUrl) =
        .ok files2
      ∧ chunks cfg.W r =
          ([cfg.dbGuid, displayArg cfg.W (canonInput s),
            decRepr (subfolderEntries env (fullDirPath cfg (canonInput s))
              (canonInput s)).length,
            decRepr files2.length]
            ++ subfolderEntries env (fullDirPath cfg (canonInput s)) (canonInput s)
            ++ files2).map (formatString cfg.W)
      ∧ (chunks cfg.W r).length =
          4 + (subfolderEntries env (fullDirPath cfg (canonInput s))
                (canonInput s)).length + files2.length := by
  obtain ⟨files2, hsort, hr⟩ :=
    getFilesAndSubfolders_ok_eq cfg env s baseUrl sortBy r hbl hok
  refine ⟨files2, hsort, ?_, ?_⟩
  · rw [hr, encodeListing_eq, chunks_encodeFields cfg.W hW]
  · rw [hr, encodeListing_eq, chunks_encodeFields cfg.W hW]
    simp [List.length_append]
    try omega

/-- Witness for C4 at the root listing of `envB` (one file, one subfolder). -/
theorem field_sequence_witness :
    ∃ r, getFilesAndSubfolders cfgA envB (str "") (str "u") (some (str "name")) = .ok r
      ∧ ∃ files2,
        applySort envB (fullDirPath cfgA (canonInput (str ""))) (some (str "name"))
          (eligibleFiles cfgA envB (fullDirPath cfgA (canonInput (str "")))
            (canonInput (str "")) (str "u")) = .ok files2
        ∧ chunks cfgA.W r =
            ([cfgA.dbGuid, displayArg cfgA.W (canonInput (str "")),
              decRepr (subfolderEntries envB (fullDirPath cfgA (canonInput (str "")))
                (canonInput (str ""))).length,
              decRepr files2.length]
              ++ subfolderEntries envB (fullDirPath cfgA (canonInput (str "")))
                  (canonInput (str ""))
              ++ files2).map (formatString cfgA.W)
        ∧ (chunks cfgA.W r).length =
            4 + (subfolderEntries envB (fullDirPath cfgA (canonInput (str "")))
                  (canonInput (str ""))).length + files2.length := by
  refine ⟨_, rfl, ?_⟩
  exact field_sequence cfgA envB (str "") (str "u") (some (str "name")) _
    (by decide) (by decide) rfl

/-! ## Round-trip of the wire encoding -/

theorem map_stripField_map_formatString (W : Nat) (l : List Str)
    (hl : ∀ v ∈ l, v.length ≤ W - 1 ∧ v.getLast? ≠ some ' ') :
    (l.map (formatString W)).map (stripField W) = l := by
  rw [List.map_map]
  have hpt : ∀ v ∈ l, (stripField W ∘ formatString W) v = id v := fun v hv =>
    stripField_formatString W v (hl v hv).1 (hl v hv).2
  rw [List.map_congr_left hpt, List.map_id]

/-- Concrete filesystem whose root holds a single subfolder named `"a "`
(with a trailing space). -/
def envC : Env :=
  { listdir := fun d => if d = str "/m/media" then [str "a "] else [],
    isFile := fun _ => false,
    isDir := fun p => p = str "/m/media" || p = str "/m/media/a ",
    mtime := fun _ => none }

/-- C1 counterexample: a listing built from the single subfolder entry
`"a "` (two characters, within `W-1`) encodes and then parses back as `"a"`:
fixed-width extraction cannot distinguish a trailing space of the value from
the trailing fill, so the recovered string differs from the original entry —
refuting the claim as stated. -/
theorem encoding_roundtrip_counterexample :
    subfolderEntries envC (fullDirPath cfgA (canonInput (str "")))
      (canonInput (str "")) = [str "a "]
    ∧ (∃ r, getFilesAndSubfolders cfgA envC (str "") (str "u") none = .ok r
        ∧ parseListing cfgA.W r = some ([str "a"], []))
    ∧ str "a" ≠ str "a " := by
  refine ⟨by decide, ⟨_, rfl, by decide⟩, by decide⟩

/-- C1 (amended: additionally, no entry value may end with the space fill
character): encoding a listing built from `M` subfolder entries and `N` file
entries with `buildListing`'s encoder and parsing it by fixed-width
extraction at width `W` recovers exactly `M` subfolder strings and `N` file
strings equal (after trailing-fill removal) to the original entry values,
provided no entry value exceeds `W-1` characters, none ends in a space, and
the two decimal count fields fit in `W-1` characters. -/
theorem encoding_roundtrip (W : Nat) (guid s : Str) (subs files : List Str)
    (hW : 1 ≤ W)
    (hsubs : ∀ v ∈ subs, v.length ≤ W - 1 ∧ v.getLast? ≠ some ' ')
    (hfiles : ∀ v ∈ files, v.length ≤ W - 1 ∧ v.getLast? ≠ some ' ')
    (hM : (decRepr subs.length).length ≤ W - 1)
    (hN : (decRepr files.length).length ≤ W - 1) :
    parseListing W (encodeListing W guid s subs files) = some (subs, files) := by
  rw [encodeListing_eq]
  unfold parseListing
  rw [chunks_encodeFields W hW]
  simp only [List.map_append, List.map_cons, List.map_nil, List.cons_append,
    List.nil_append]
  show (if ((subs.map (formatString W)) ++ (files.map (formatString W))).length =
      parseDec (stripField W (formatString W (decRepr subs.length))) +
      parseDec (stripField W (formatString W (decRepr files.length))) then _ else _) = _
  rw [stripField_formatString W _ hM (decRepr_getLast_ne_space _),
    stripField_formatString W _ hN (decRepr_getLast_ne_space _),
    parseDec_decRepr, parseDec_decRepr]
  rw [if_pos (by simp)]
  have htake : ((subs.map (formatString W)) ++ (files.map (formatString W))).take
      subs.length = subs.map (formatString W) :=
    List.take_left' (by simp)
  have hdrop : ((subs.map (formatString W)) ++ (files.map (formatString W))).drop
      subs.length = files.map (formatString W) :=
    List.drop_left' (by simp)
  rw [htake, hdrop, map_stripField_map_formatString W subs hsubs,
    map_stripField_map_formatString W files hfiles]

/-- Witness for C1 at `W = 8` with one subfolder and one file entry. -/
theorem encoding_roundtrip_witness :
    parseListing 8 (encodeListing 8 (str "g") (str ".") [str ".."] [str "u/f"]) =
      some ([str ".."], [str "u/f"]) :=
  encoding_roundtrip 8 (str "g") (str ".") [str ".."] [str "u/f"]
    (by decide) (by decide) (by decide) (by decide) (by decide)

/-! ## Date-sort mtime lookup -/

/-- Configuration over root `/m`, no blacklist, all extensions allowed. -/
def cfgD : Cfg :=
  { root := str "/m", cwd := str "/", W := 16, dbGuid := str "g",
    allowedExts := none, blacklist := [] }

/-- Filesystem with a single file `a b.png` (space in the name) at the root;
its modification time is defined, and no other path has one. -/
def envD : Env :=
  { listdir := fun d => if d = str "/m" then [str "a b.png"] else [],
    isFile := fun p => p = str "/m/a b.png",
    isDir := fun p => p = str "/m",
    mtime := fun p => if p = str "/m/a b.png" then some 5 else none }

/-- C6 (code bug, `FileServer.py` line 167): the `date` sort keys each file
by `getmtime(join(dir, basename(url)))`, where `basename(url)` is the
percent-encoded filename from the rendered URL, not the on-disk name.  For
the file `a b.png` the lookup path is `/m/a%20b.png`, which does not exist,
so `os.path.getmtime` raises and the whole listing request fails instead of
returning entries ordered by the underlying file's modification time. -/
theorem date_sort_uses_quoted_basename :
    eligibleFiles cfgD envD (fullDirPath cfgD (canonInput (str "")))
      (canonInput (str "")) (str "u") = [str "u/files/a%20b.png"]
    ∧ pyJoin (str "/m") (basename (str "u/files/a%20b.png")) = str "/m/a%20b.png"
    ∧ envD.mtime (str "/m/a b.png") = some 5
    ∧ envD.mtime (str "/m/a%20b.png") = none
    ∧ getFilesAndSubfolders cfgD envD (str "") (str "u") (some (str "date")) =
        .error .osError := by
  exact ⟨by decide, by decide, by decide, by decide, rfl⟩

/-! ## Path-segment lemmas for the normalization round-trip -/

/-- Segments kept by the component collapse when no `..` is present: the
nonempty, non-`.` ones, in order. -/
def cleanParts (P : List Str) : List Str :=
  P.filter (fun c => decide (c ≠ [] ∧ c ≠ str "."))

theorem splitSep_ne_nil (l : Str) : splitSep l ≠ [] := by
  cases l with
  | nil => simp [splitSep]
  | cons c cs =>
    unfold splitSep
    split_ifs
    · simp
    · split <;> simp

theorem headI_mem_of_ne_nil {l : List Str} (h : l ≠ []) : l.headI ∈ l := by
  cases l with
  | nil => exact absurd rfl h
  | cons a t => simp [List.headI]

theorem splitSep_cons_slash (cs : Str) : splitSep ('/' :: cs) = [] :: splitSep cs := by
  conv_lhs => rw [splitSep]
  rw [if_pos rfl]

theorem splitSep_cons_ne (c : Char) (cs : Str) (hc : c ≠ '/') :
    splitSep (c :: cs) = (c :: (splitSep cs).headI) :: (splitSep cs).tail := by
  conv_lhs => rw [splitSep]
  rw [if_neg hc]
  cases hsp : splitSep cs with
  | nil => exact absurd hsp (splitSep_ne_nil cs)
  | cons p ps => simp

theorem splitSep_no_slash (l : Str) : ∀ p ∈ splitSep l, '/' ∉ p := by
  induction l with
  | nil => simp [splitSep]
  | cons c cs ih =>
    by_cases hc : c = '/'
    · subst hc
      rw [splitSep_cons_slash]
      intro p hp
      rcases List.mem_cons.mp hp with h | h
      · simp [h]
      · exact ih p h
    · rw [splitSep_cons_ne c cs hc]
      intro p hp
      rcases List.mem_cons.mp hp with h | h
      · subst h
        intro hmem
        rcases List.mem_cons.mp hmem with h' | h'
        · exact hc h'.symm
        · exact ih _ (headI_mem_of_ne_nil (splitSep_ne_nil cs)) h'
      · exact ih p (List.mem_of_mem_tail h)

theorem splitSep_chars (l : Str) : ∀ p ∈ splitSep l, ∀ c ∈ p, c ∈ l := by
  induction l with
  | nil => simp [splitSep]
  | cons c cs ih =>
    by_cases hc : c = '/'
    · subst hc
      rw [splitSep_cons_slash]
      intro p hp x hx
      rcases List.mem_cons.mp hp with h | h
      · subst h; simp at hx
      · exact List.mem_cons_of_mem _ (ih p h x hx)
    · rw [splitSep_cons_ne c cs hc]
      intro p hp x hx
      rcases List.mem_cons.mp hp with h | h
      · subst h
        rcases List.mem_cons.mp hx with h' | h'
        · simp [h']
        · exact List.mem_cons_of_mem c
            (ih _ (headI_mem_of_ne_nil (splitSep_ne_nil cs)) x h')
      · exact List.mem_cons_of_mem c (ih p (List.mem_of_mem_tail h) x hx)

theorem splitSep_append_sep (u v : Str) :
    splitSep (u ++ '/' :: v) = splitSep u ++ splitSep v := by
  induction u with
  | nil => simp [splitSep, splitSep_cons_slash]
  | cons c cs ih =>
    by_cases hc : c = '/'
    · subst hc
      rw [List.cons_append, splitSep_cons_slash, splitSep_cons_slash, ih,
        List.cons_append]
    · rw [List.cons_append, splitSep_cons_ne c _ hc, splitSep_cons_ne c cs hc, ih]
      cases hsp : splitSep cs with
      | nil => exact absurd hsp (splitSep_ne_nil cs)
      | cons p ps => simp

theorem splitSep_noslash_append (w : Str) (hw : '/' ∉ w) (rest : Str) :
    splitSep (w ++ rest) = (w ++ (splitSep rest).headI) :: (splitSep rest).tail := by
  induction w with
  | nil =>
    simp only [List.nil_append]
    cases hsp : splitSep rest with
    | nil => exact absurd hsp (splitSep_ne_nil rest)
    | cons a l => simp
  | cons c cs ih =>
    have hc : c ≠ '/' := fun h => hw (h ▸ List.mem_cons_self c cs)
    rw [List.cons_append, splitSep_cons_ne c _ hc,
      ih (fun h => hw (List.mem_cons_of_mem c h))]
    simp

theorem splitSep_single (w : Str) (hw : '/' ∉ w) : splitSep w = [w] := by
  have h := splitSep_noslash_append w hw []
  rw [List.append_nil] at h
  rw [h]
  simp [splitSep]

theorem joinSep_ne_nil (Q : List Str) (hne : Q ≠ [])
    (hQ : ∀ p ∈ Q, p ≠ []) : joinSep Q ≠ [] := by
  cases Q with
  | nil => exact absurd rfl hne
  | cons p ps =>
    cases ps with
    | nil => exact hQ p (by simp)
    | cons q qs =>
      show p ++ '/' :: joinSep (q :: qs) ≠ []
      simp

theorem splitSep_joinSep (Q : List Str) (hne : Q ≠ [])
    (hQ : ∀ p ∈ Q, p ≠ [] ∧ '/' ∉ p) : splitSep (joinSep Q) = Q := by
  induction Q with
  | nil => exact absurd rfl hne
  | cons p ps ih =>
    cases ps with
    | nil => exact splitSep_single p (hQ p (by simp)).2
    | cons q qs =>
      show splitSep (p ++ '/' :: joinSep (q :: qs)) = p :: q :: qs
      rw [splitSep_append_sep,
        ih (by simp) (fun x hx => hQ x (List.mem_cons_of_mem p hx)),
        splitSep_single p (hQ p (by simp)).2]
      rfl

theorem collapseAcc_cons (abs : Bool) (acc : List Str) (c : Str) (cs : List Str) :
    collapseAcc abs acc (c :: cs) =
      if c = [] ∨ c = str "." then collapseAcc abs acc cs
      else if c ≠ str ".." ∨ (¬ abs ∧ acc = []) ∨ acc.head? = some (str "..") then
        collapseAcc abs (c :: acc) cs
      else
        match acc with
        | [] => collapseAcc abs [] cs
        | _ :: rest => collapseAcc abs rest cs := rfl

theorem collapseAcc_nil_cons (abs : Bool) (acc : List Str) (cs : List Str) :
    collapseAcc abs acc ([] :: cs) = collapseAcc abs acc cs := by
  rw [collapseAcc_cons, if_pos (Or.inl rfl)]

theorem collapseAcc_clean_append (Q : List Str)
    (hQ : ∀ c ∈ Q, c ≠ [] ∧ c ≠ str "." ∧ c ≠ str "..") :
    ∀ (abs : Bool) (acc cont : List Str),
      collapseAcc abs acc (Q ++ cont) = collapseAcc abs (Q.reverse ++ acc) cont := by
  induction Q with
  | nil => intro abs acc cont; simp
  | cons c cs ih =>
    intro abs acc cont
    have hc := hQ c (by simp)
    rw [List.cons_append]
    rw [collapseAcc_cons, if_neg (by simp [hc.1, hc.2.1]), if_pos (Or.inl hc.2.2),
      ih (fun x hx => hQ x (List.mem_cons_of_mem c hx)) abs (c :: acc) cont]
    congr 1
    simp

theorem collapseAcc_no_dotdot (P : List Str) (hP : ∀ c ∈ P, c ≠ str "..") :
    ∀ (abs : Bool) (acc : List Str),
      collapseAcc abs acc P = (cleanParts P).reverse ++ acc := by
  induction P with
  | nil => intro abs acc; simp [collapseAcc, cleanParts]
  | cons c cs ih =>
    intro abs acc
    by_cases hc : c = [] ∨ c = str "."
    · rw [collapseAcc_cons, if_pos hc, ih (fun x hx => hP x (List.mem_cons_of_mem c hx)) abs acc]
      have hfilter : cleanParts (c :: cs) = cleanParts cs := by
        simp only [cleanParts, List.filter_cons]
        rw [if_neg (by rcases hc with h | h <;> simp [h])]
      rw [hfilter]
    · rw [collapseAcc_cons, if_neg hc, if_pos (Or.inl (hP c (by simp))),
        ih (fun x hx => hP x (List.mem_cons_of_mem c hx)) abs (c :: acc)]
      have hfilter : cleanParts (c :: cs) = c :: cleanParts cs := by
        simp only [cleanParts, List.filter_cons]
        rw [if_pos (by simpa using not_or.mp hc)]
      rw [hfilter, List.reverse_cons, List.append_assoc]
      rfl

theorem cleanParts_sublist (P : List Str) : ∀ p ∈ cleanParts P, p ∈ P :=
  fun _ hp => List.mem_of_mem_filter hp

theorem cleanParts_clean (P : List Str) :
    ∀ p ∈ cleanParts P, p ≠ [] ∧ p ≠ str "." := by
  intro p hp
  have := List.of_mem_filter hp
  simpa using this

theorem cleanParts_eq_self (P : List Str) (hP : ∀ p ∈ P, p ≠ [] ∧ p ≠ str ".") :
    cleanParts P = P := by
  unfold cleanParts
  rw [List.filter_eq_self]
  intro p hp
  simpa using hP p hp

/-! ## Character-level lemmas for the normalization round-trip -/

theorem hasPre_append_self (p z : Str) : hasPre p (p ++ z) = true := by
  induction p with
  | nil => rfl
  | cons c cs ih => simp [hasPre, ih]

theorem hasPre_slash_cons (x : Char) (t : Str) (hx : x ≠ '/') :
    hasPre (str "/") (x :: t) = false := by
  show (decide ('/' = x) && hasPre [] t) = false
  rw [decide_eq_false (fun h => hx h.symm), Bool.false_and]

theorem hasPre_slash_nil : hasPre (str "/") [] = false := rfl

theorem joinSep_chars (Q : List Str) :
    ∀ c ∈ joinSep Q, c = '/' ∨ ∃ p ∈ Q, c ∈ p := by
  induction Q with
  | nil => simp [joinSep]
  | cons p ps ih =>
    cases ps with
    | nil =>
      intro c hc
      exact Or.inr ⟨p, by simp, hc⟩
    | cons q qs =>
      intro c hc
      rcases List.mem_append.mp hc with h | h
      · exact Or.inr ⟨p, by simp, h⟩
      · rcases List.mem_cons.mp h with h' | h'
        · exact Or.inl h'
        · rcases ih c h' with h'' | ⟨r, hr, hcr⟩
          · exact Or.inl h''
          · exact Or.inr ⟨r, List.mem_cons_of_mem p hr, hcr⟩

theorem joinSep_getLast_ne_slash (Q : List Str)
    (hQ : ∀ p ∈ Q, p ≠ [] ∧ '/' ∉ p) : (joinSep Q).getLast? ≠ some '/' := by
  induction Q with
  | nil => simp [joinSep]
  | cons p ps ih =>
    cases ps with
    | nil =>
      intro hcon
      exact (hQ p (by simp)).2 (List.mem_of_getLast?_eq_some hcon)
    | cons q qs =>
      show (p ++ '/' :: joinSep (q :: qs)).getLast? ≠ some '/'
      rw [List.getLast?_append_of_ne_nil p (by simp)]
      cases hj : joinSep (q :: qs) with
      | nil =>
        exact absurd hj (joinSep_ne_nil (q :: qs) (by simp)
          (fun x hx => (hQ x (List.mem_cons_of_mem p hx)).1))
      | cons a l =>
        rw [List.getLast?_cons_cons, ← hj]
        exact ih (fun x hx => hQ x (List.mem_cons_of_mem p hx))

theorem hasPre_slash_joinSep_append (Q : List Str) (hne : Q ≠ [])
    (hQ : ∀ p ∈ Q, p ≠ [] ∧ '/' ∉ p) (z : Str) :
    hasPre (str "/") (joinSep Q ++ z) = false := by
  cases Q with
  | nil => exact absurd rfl hne
  | cons p ps =>
    obtain ⟨x, xs, rfl⟩ : ∃ x xs, p = x :: xs := by
      cases hp : p with
      | nil => exact absurd hp (hQ p (by simp)).1
      | cons x xs => exact ⟨x, xs, rfl⟩
    have hx : x ≠ '/' := fun h =>
      (hQ (x :: xs) (by simp)).2 (by rw [h]; exact List.mem_cons_self _ _)
    cases ps with
    | nil => exact hasPre_slash_cons x (xs ++ z) hx
    | cons q qs =>
      show hasPre (str "/") (((x :: xs) ++ '/' :: joinSep (q :: qs)) ++ z) = false
      rw [List.cons_append, List.cons_append]
      exact hasPre_slash_cons x _ hx

theorem replaceBackslash_eq_self (l : Str) (h : ∀ c ∈ l, c ≠ '\\') :
    replaceBackslash l = l := by
  unfold replaceBackslash
  have hpt : ∀ c ∈ l, (fun c => if c = '\\' then '/' else c) c = id c := fun c hc => by
    simp [h c hc]
  rw [List.map_congr_left hpt, List.map_id]

theorem replaceBackslash_chars (l : Str) : ∀ c ∈ replaceBackslash l, c ≠ '\\' := by
  intro c hc
  obtain ⟨x, _, hx⟩ := List.mem_map.mp hc
  by_cases hxb : x = '\\'
  · rw [← hx, if_pos hxb]; decide
  · rw [← hx, if_neg hxb]; exact hxb

theorem mem_collapseDS (l : Str) : ∀ c ∈ collapseDoubleSlash l, c ∈ l := by
  suffices h : ∀ (n : Nat) (l : Str), l.length = n → ∀ c ∈ collapseDoubleSlash l, c ∈ l from
    h l.length l rfl
  intro n
  induction n using Nat.strong_induction_on with
  | _ n ih =>
    intro l hl
    match l with
    | [] => intro c hc; simp [collapseDoubleSlash] at hc
    | [a] =>
      intro c hc
      simp [collapseDoubleSlash] at hc
      simp [hc]
    | a :: b :: rest =>
      intro c hc
      rw [show collapseDoubleSlash (a :: b :: rest) =
          if a = '/' ∧ b = '/' then '/' :: collapseDoubleSlash rest
          else a :: collapseDoubleSlash (b :: rest) from rfl] at hc
      split_ifs at hc with hab
      · rcases List.mem_cons.mp hc with h | h
        · rw [h, hab.1]
          exact List.mem_cons_self _ _
        · have hmem := ih rest.length (by simp at hl ⊢; omega) rest rfl c h
          exact List.mem_cons_of_mem a (List.mem_cons_of_mem b hmem)
      · rcases List.mem_cons.mp hc with h | h
        · rw [h]; exact List.mem_cons_self a (b :: rest)
        · have hmem := ih (b :: rest).length (by simp at hl ⊢; omega) (b :: rest) rfl c h
          exact List.mem_cons_of_mem a hmem

theorem collapseDS_noslash_append (w : Str) (hw : '/' ∉ w) (z : Str) :
    collapseDoubleSlash (w ++ z) = w ++ collapseDoubleSlash z := by
  induction w with
  | nil => rfl
  | cons c cs ih =>
    have hc : c ≠ '/' := fun h => hw (by rw [h]; exact List.mem_cons_self _ _)
    rw [List.cons_append]
    cases hcz : cs ++ z with
    | nil =>
      obtain ⟨hcs, hz⟩ := List.append_eq_nil.mp hcz
      subst hcs; subst hz
      rfl
    | cons d rest =>
      rw [show collapseDoubleSlash (c :: d :: rest) =
          if c = '/' ∧ d = '/' then '/' :: collapseDoubleSlash rest
          else c :: collapseDoubleSlash (d :: rest) from rfl,
        if_neg (fun hcon => hc hcon.1), ← hcz,
        ih (fun h => hw (List.mem_cons_of_mem c h))]
      rfl

theorem collapseDS_slash_cons (w : Str) (hw : hasPre (str "/") w = false) :
    collapseDoubleSlash ('/' :: w) = '/' :: collapseDoubleSlash w := by
  cases w with
  | nil => rfl
  | cons d rest =>
    have hd : d ≠ '/' := by
      intro h
      subst h
      exact absurd hw (by rw [show hasPre (str "/") ('/' :: rest) = true from rfl]; simp)
    rw [show collapseDoubleSlash ('/' :: d :: rest) =
        if ('/' : Char) = '/' ∧ d = '/' then '/' :: collapseDoubleSlash rest
        else '/' :: collapseDoubleSlash (d :: rest) from rfl,
      if_neg (fun hcon => hd hcon.2)]

theorem collapseDS_join (Q : List Str) (hQ : ∀ p ∈ Q, p ≠ [] ∧ '/' ∉ p) :
    collapseDoubleSlash (joinSep Q) = joinSep Q := by
  induction Q with
  | nil => rfl
  | cons p ps ih =>
    cases ps with
    | nil =>
      show collapseDoubleSlash p = p
      have h := collapseDS_noslash_append p (hQ p (by simp)).2 []
      rw [List.append_nil] at h
      rw [show collapseDoubleSlash ([] : Str) = [] from rfl, List.append_nil] at h
      exact h
    | cons q qs =>
      show collapseDoubleSlash (p ++ '/' :: joinSep (q :: qs)) = _
      have hqs : ∀ x ∈ q :: qs, x ≠ [] ∧ '/' ∉ x :=
        fun x hx => hQ x (List.mem_cons_of_mem p hx)
      have hnopre : hasPre (str "/") (joinSep (q :: qs)) = false := by
        have h := hasPre_slash_joinSep_append (q :: qs) (by simp) hqs []
        rwa [List.append_nil] at h
      rw [collapseDS_noslash_append p (hQ p (by simp)).2,
        collapseDS_slash_cons _ hnopre, ih hqs]
      rfl

theorem initialSlashes_slash_cons (t : Str) (ht : hasPre (str "/") t = false) :
    initialSlashes ('/' :: t) = 1 := by
  unfold initialSlashes
  rw [if_pos (show hasPre (str "/") ('/' :: t) = true from rfl), if_neg ?hn]
  case hn =>
    intro hcon
    have h2 : hasPre (str "//") ('/' :: t) = hasPre (str "/") t := rfl
    rw [Bool.and_eq_true, h2, ht] at hcon
    exact Bool.false_ne_true hcon.1

theorem normpath_abs (t : Str) (ht : hasPre (str "/") t = false) :
    normpath ('/' :: t) =
      '/' :: joinSep ((collapseAcc true [] (splitSep t)).reverse) := by
  unfold normpath
  rw [if_neg (by simp : ¬('/' :: t) = [])]
  simp only [initialSlashes_slash_cons t ht, splitSep_cons_slash, collapseAcc_nil_cons]
  rw [if_neg (by simp)]
  simp

theorem formatString_idem (W : Nat) (v : Str) :
    formatString W (formatString W v) = formatString W v := by
  unfold formatString
  set u := (v ++ List.replicate ((W - 1) - v.length) ' ').take (W - 1) with hu
  have hul : u.length = W - 1 := by
    rw [hu]
    simp only [List.length_take, List.length_append, List.length_replicate]
    omega
  have hpadlen : (W - 1) - (u ++ ['|']).length = 0 := by
    simp only [List.length_append, List.length_cons, List.length_nil]
    omega
  rw [hpadlen, List.replicate_zero, List.append_nil, List.take_left' hul]

theorem fullDirPath_parts (cfg : Cfg) (R : List Str) (x : Str)
    (hroot : cfg.root = '/' :: joinSep R) (hR : R ≠ [])
    (hRclean : ∀ p ∈ R, p ≠ [] ∧ p ≠ str "." ∧ p ≠ str ".." ∧ '/' ∉ p)
    (hx : hasPre (str "/") x = false)
    (hxdd : ∀ c ∈ splitSep x, c ≠ str "..") :
    fullDirPath cfg x = '/' :: joinSep (R ++ cleanParts (splitSep x)) := by
  have hRc1 : ∀ p ∈ R, p ≠ [] ∧ '/' ∉ p :=
    fun p hp => ⟨(hRclean p hp).1, (hRclean p hp).2.2.2⟩
  have hRc2 : ∀ p ∈ R, p ≠ [] ∧ p ≠ str "." ∧ p ≠ str ".." :=
    fun p hp => ⟨(hRclean p hp).1, (hRclean p hp).2.1, (hRclean p hp).2.2.1⟩
  have hends : endsSlash cfg.root = false := by
    rw [hroot]
    unfold endsSlash
    cases hj : joinSep R with
    | nil => exact absurd hj (joinSep_ne_nil R hR (fun p hp => (hRc1 p hp).1))
    | cons a l =>
      rw [List.getLast?_cons_cons, ← hj]
      exact decide_eq_false (joinSep_getLast_ne_slash R hRc1)
  have hjoin : pyJoin cfg.root x = cfg.root ++ '/' :: x := by
    unfold pyJoin
    rw [if_neg (by simp [hx]), if_neg (by rw [hroot]; simp), if_neg (by simp [hends])]
  have habs : hasPre (str "/") (pyJoin cfg.root x) = true := by
    rw [hjoin, hroot]
    rfl
  unfold fullDirPath abspath
  rw [if_pos habs, hjoin, hroot, List.cons_append,
    normpath_abs (joinSep R ++ '/' :: x) (hasPre_slash_joinSep_append R hR hRc1 _),
    splitSep_append_sep, splitSep_joinSep R hR hRc1,
    collapseAcc_clean_append R hRc2 true [] (splitSep x),
    collapseAcc_no_dotdot (splitSep x) hxdd true (R.reverse ++ []),
    List.append_nil, List.reverse_append, List.reverse_reverse, List.reverse_reverse]

theorem canonInput_no_backslash (s0 : Str) : ∀ c ∈ canonInput s0, c ≠ '\\' := by
  have hmain : ∀ (l : Str), (∀ c ∈ l, c ≠ '\\') →
      ∀ c ∈ (if endsSlash l then l.dropLast else l), c ≠ '\\' := by
    intro l hl c hc
    split_ifs at hc
    · exact hl c (List.dropLast_subset l hc)
    · exact hl c hc
  have hmain2 : ∀ (l : Str), (∀ c ∈ l, c ≠ '\\') →
      ∀ c ∈ (if hasPre (str "/") l then l.drop 1 else l), c ≠ '\\' := by
    intro l hl c hc
    split_ifs at hc
    · exact hl c (List.drop_subset 1 l hc)
    · exact hl c hc
  intro c hc
  simp only [canonInput] at hc
  exact hmain _ (hmain2 _
    (fun x hx => replaceBackslash_chars _ x (mem_collapseDS _ x hx))) c hc

theorem canonInput_display (t : Str)
    (h2 : hasPre (str "/") t = false)
    (hdd : ∀ c ∈ splitSep t, c ≠ str "..")
    (hbs : ∀ c ∈ t, c ≠ '\\') :
    canonInput (str "root/" ++ t) = joinSep (cleanParts (splitSep t)) := by
  have hC : ∀ p ∈ cleanParts (splitSep t), p ≠ [] ∧ '/' ∉ p := fun p hp =>
    ⟨(cleanParts_clean _ p hp).1, splitSep_no_slash t p (cleanParts_sublist _ p hp)⟩
  have hCbs : ∀ c ∈ '/' :: joinSep (cleanParts (splitSep t)), c ≠ '\\' := by
    intro c hc
    rcases List.mem_cons.mp hc with h | h
    · rw [h]; decide
    · rcases joinSep_chars _ c h with h' | ⟨p, hp, hcp⟩
      · rw [h']; decide
      · exact hbs c (splitSep_chars t p (cleanParts_sublist _ p hp) c hcp)
  have hCnopre : hasPre (str "/") (joinSep (cleanParts (splitSep t))) = false := by
    cases hcp : cleanParts (splitSep t) with
    | nil => rfl
    | cons a l =>
      have h := hasPre_slash_joinSep_append (a :: l) (by simp)
        (by rw [← hcp]; exact hC) []
      rwa [List.append_nil] at h
  have hCendslash : endsSlash (joinSep (cleanParts (splitSep t))) = false := by
    cases hcp : cleanParts (splitSep t) with
    | nil => rfl
    | cons a l =>
      unfold endsSlash
      exact decide_eq_false (joinSep_getLast_ne_slash (a :: l) (by rw [← hcp]; exact hC))
  simp only [canonInput]
  rw [if_pos (hasPre_append_self (str "root/") t),
    show (str "root/" ++ t).drop 4 = '/' :: t from rfl,
    normpath_abs t h2,
    collapseAcc_no_dotdot (splitSep t) hdd true [], List.append_nil,
    List.reverse_reverse,
    replaceBackslash_eq_self _ hCbs,
    collapseDS_slash_cons _ hCnopre, collapseDS_join _ hC,
    if_pos (show hasPre (str "/")
      ('/' :: joinSep (cleanParts (splitSep t))) = true from rfl),
    show ('/' :: joinSep (cleanParts (splitSep t))).drop 1 =
      joinSep (cleanParts (splitSep t)) from rfl,
    if_neg (by simp [hCendslash])]

theorem cleanParts_splitSep_joinSep (C : List Str)
    (hC : ∀ p ∈ C, p ≠ [] ∧ p ≠ str "." ∧ '/' ∉ p) :
    cleanParts (splitSep (joinSep C)) = C := by
  cases hcp : C with
  | nil => rfl
  | cons a l =>
    rw [← hcp,
      splitSep_joinSep C (by rw [hcp]; simp)
        (fun p hp => ⟨(hC p hp).1, (hC p hp).2.2⟩),
      cleanParts_eq_self C (fun p hp => ⟨(hC p hp).1, (hC p hp).2.1⟩)]

/-- Filesystem in which both `.h` and `h` exist under the root. -/
def envH : Env :=
  { listdir := fun _ => [],
    isFile := fun _ => false,
    isDir := fun p => p = str "/m/media" || p = str "/m/media/.h" || p = str "/m/media/h",
    mtime := fun _ => none }

/-- C7 counterexample: the display-path chain strips a leading `.` from the
normalized path (line 182), so the valid input `.h` (a dot-directory that
exists and lists fine) is reported with canonical display path `root/h`;
fed back as an input, that display path resolves to `/m/media/h`, a
different directory than `/m/media/.h` — refuting the claim that the
canonical display path always round-trips to the same directory. -/
theorem normalization_roundtrip_counterexample :
    (∃ r, getFilesAndSubfolders cfgA envH (str ".h") (str "u") none = .ok r
       ∧ stripField cfgA.W ((chunks cfgA.W r).getD 1 []) = str "root/h")
    ∧ fullDirPath cfgA (canonInput (str ".h")) = str "/m/media/.h"
    ∧ fullDirPath cfgA (canonInput (str "root/h")) = str "/m/media/h"
    ∧ (str "/m/media/.h" : Str) ≠ str "/m/media/h" := by
  exact ⟨⟨_, rfl, by decide⟩, by decide, by decide, by decide⟩

/-- C7 (amended: inputs normalizing to the same relative path are
interchangeable; the display-path round-trip holds for normalized paths that
do not begin with `.`, `/` or the literal `root/` marker and contain no `..`
segment): (1) any two raw inputs with the same code-normalized relative path
produce the identical response (hence identical resolved directory and
identical display field); (2) for such well-formed normalized paths the
emitted display value is `root/` + path, and that display path is itself an
input resolving to the identical absolute directory. -/
theorem normalization_idempotence (cfg : Cfg) (env : Env) (baseUrl : Str)
    (sortBy : Option Str) (R : List Str)
    (hroot : cfg.root = '/' :: joinSep R) (hR : R ≠ [])
    (hRclean : ∀ p ∈ R, p ≠ [] ∧ p ≠ str "." ∧ p ≠ str ".." ∧ '/' ∉ p) :
    (∀ a b, canonInput a = canonInput b →
      getFilesAndSubfolders cfg env a baseUrl sortBy =
        getFilesAndSubfolders cfg env b baseUrl sortBy)
    ∧ (∀ s, hasPre (str ".") (canonInput s) = false →
        hasPre (str "/") (canonInput s) = false →
        hasPre (str "root/") (canonInput s) = false →
        (∀ c ∈ splitSep (canonInput s), c ≠ str "..") →
        formatString cfg.W (displayArg cfg.W (canonInput s)) =
          formatString cfg.W (str "root/" ++ canonInput s)
        ∧ fullDirPath cfg (canonInput (str "root/" ++ canonInput s)) =
            fullDirPath cfg (canonInput s)) := by
  constructor
  · intro a b h
    simp only [getFilesAndSubfolders]
    rw [h]
  · intro s h1 h2 h3 hdd
    have hCprops : ∀ p ∈ cleanParts (splitSep (canonInput s)),
        p ≠ [] ∧ p ≠ str "." ∧ p ≠ str ".." ∧ '/' ∉ p := fun p hp =>
      ⟨(cleanParts_clean _ p hp).1, (cleanParts_clean _ p hp).2,
        hdd p (cleanParts_sublist _ p hp),
        splitSep_no_slash _ p (cleanParts_sublist _ p hp)⟩
    constructor
    · unfold displayArg
      rw [h1]
      simp only [Bool.false_eq_true, if_false]
      rw [h2]
      simp only [Bool.false_eq_true, if_false]
      rw [h3]
      simp only [Bool.false_eq_true, if_false]
      exact formatString_idem cfg.W _
    · rw [canonInput_display (canonInput s) h2 hdd (canonInput_no_backslash s)]
      have hc1 : hasPre (str "/")
          (joinSep (cleanParts (splitSep (canonInput s)))) = false := by
        cases hcp : cleanParts (splitSep (canonInput s)) with
        | nil => rfl
        | cons a l =>
          have h := hasPre_slash_joinSep_append (a :: l) (by simp)
            (by rw [← hcp]
                exact fun p hp => ⟨(hCprops p hp).1, (hCprops p hp).2.2.2⟩) []
          rwa [List.append_nil] at h
      have hc2 : ∀ c ∈ splitSep (joinSep (cleanParts (splitSep (canonInput s)))),
          c ≠ str ".." := by
        cases hcp : cleanParts (splitSep (canonInput s)) with
        | nil =>
          intro c hc
          simp only [joinSep] at hc
          rw [show splitSep [] = [[]] from rfl] at hc
          rcases List.mem_singleton.mp hc with rfl
          decide
        | cons a l =>
          rw [← hcp, splitSep_joinSep _ (by rw [hcp]; simp)
            (fun p hp => ⟨(hCprops p hp).1, (hCprops p hp).2.2.2⟩)]
          exact fun c hc => (hCprops c hc).2.2.1
      rw [fullDirPath_parts cfg R _ hroot hR hRclean hc1 hc2,
        fullDirPath_parts cfg R (canonInput s) hroot hR hRclean h2 hdd,
        cleanParts_splitSep_joinSep _
          (fun p hp => ⟨(hCprops p hp).1, (hCprops p hp).2.1, (hCprops p hp).2.2.2⟩)]

/-- Witness for C7: the root configuration decomposes as required; `a//b`
and `./a/b` normalize alike and give identical responses; and for `a/b` the
display value is `root/a/b`, which round-trips to the same directory. -/
theorem normalization_idempotence_witness :
    cfgA.root = '/' :: joinSep [str "m", str "media"]
    ∧ canonInput (str "a//b") = canonInput (str "./a/b")
    ∧ getFilesAndSubfolders cfgA envA (str "a//b") (str "u") none =
        getFilesAndSubfolders cfgA envA (str "./a/b") (str "u") none
    ∧ formatString cfgA.W (displayArg cfgA.W (canonInput (str "a/b"))) =
        formatString cfgA.W (str "root/" ++ canonInput (str "a/b"))
    ∧ fullDirPath cfgA (canonInput (str "root/" ++ canonInput (str "a/b"))) =
        fullDirPath cfgA (canonInput (str "a/b")) := by
  have h := normalization_idempotence cfgA envA (str "u") none
    [str "m", str "media"] (by decide) (by decide) (by decide)
  have h2 := h.2 (str "a/b") (by decide) (by decide) (by decide) (by decide)
  exact ⟨by decide, by decide, h.1 (str "a//b") (str "./a/b") (by decide), h2.1, h2.2⟩

end MediaGallery
